import Mathlib

/-!
Verification development for the `rust-sstb` sstable library.

Shallow embedding of the on-disk format, the V1 writer, the metadata
parsing and chunk-scan logic of the readers, the sparse-index bound
lookup, the concurrent page cache miss path, and the sharded concurrent
LRU cache.  Bytes are modelled as natural numbers (each value below 256
whenever produced by one of the serializers below); byte strings are
`List Nat`.  Fallible Rust code returning `Result` is modelled with
`Except`; slice accesses that can panic are modelled with `Option`.
-/

namespace Sstb

/-- Errors, from `src/sstable/error.rs` (only the variants the embedded
code can produce; `bincode` deserialization failures are collapsed into
one constructor). -/
inductive Err where
  | io : Err
  | invalidData : String → Err
  | unsupportedVersion : Nat → Nat → Err
  | bincode : Err
  | intConversion : Err
  deriving DecidableEq, Repr

/-- The constant `INVALID_DATA` from `src/sstable/error.rs`. -/
def INVALID_DATA : Err := Err.invalidData "corrupt SStable or bug"

/-- Little-endian byte encoding of `n` on `w` bytes, as produced by
`bincode` for the fixed-width integer fields of the on-disk structs. -/
def leBytes (w n : Nat) : List Nat :=
  (List.range w).map fun i => n / 256 ^ i % 256

/-- Value of a little-endian byte string. -/
def leVal : List Nat → Nat
  | [] => 0
  | b :: bs => b + 256 * leVal bs

/-- Rust `<[u8]>::cmp`: lexicographic comparison of byte strings, a
proper prefix comparing as smaller.  Used by `BTreeMap` ordering and by
`start_key.cmp(key)` in `find_value_offset_v2`. -/
def cmpBytes : List Nat → List Nat → Ordering
  | [], [] => Ordering.eq
  | [], _ :: _ => Ordering.lt
  | _ :: _, [] => Ordering.gt
  | a :: as, b :: bs =>
    if a < b then Ordering.lt
    else if b < a then Ordering.gt
    else cmpBytes as bs

/-- Rust `buf.get(start..end)`: `some` of the sub-slice when
`start ≤ end ∧ end ≤ buf.len()`, `none` otherwise. -/
def sliceGet (buf : List Nat) (s e : Nat) : Option (List Nat) :=
  if s ≤ e ∧ e ≤ buf.length then some ((buf.drop s).take (e - s)) else none

/-- Rust `&buf[start..end]` (panicking slice indexing): identical domain
to `sliceGet`; `none` models a panic. -/
def sliceIdx (buf : List Nat) (s e : Nat) : Option (List Nat) :=
  sliceGet buf s e

/-- `KVLength::encoded_size()` from `src/sstable/ondisk_format.rs`:
`size_of::<u16>() + size_of::<u32>()`. -/
def kvLengthEncodedSize : Nat := 6

/-- `bincode::deserialize::<KVLength>` from the start of a byte buffer:
`key_length : u16 LE` then `value_length : u32 LE`; fails when fewer
than 6 bytes are available (trailing bytes are allowed by
`bincode::deserialize`). -/
def deserializeKVLength (buf : List Nat) : Option (Nat × Nat) :=
  if kvLengthEncodedSize ≤ buf.length then
    some (leVal (buf.take 2), leVal ((buf.drop 2).take 4))
  else none

/-- Loop body of `find_value_offset_v2` from
`src/sstable/ondisk_format.rs` lines 114-147, translated verbatim: note
that the source deserializes the `KVLength` header from `&buf` (the
start of the chunk) on every iteration, not from `&buf[offset..]`. -/
def findValueOffsetGo (buf key : List Nat) (offset : Nat) :
    Except Err (Option (Nat × Nat)) :=
  if _h : offset < buf.length then
    match deserializeKVLength buf with
    | none => Except.error Err.bincode
    | some (klen, vlen) =>
      let keyStart := offset + kvLengthEncodedSize
      let keyEnd := keyStart + klen
      match sliceGet buf keyStart keyEnd with
      | none => Except.error INVALID_DATA
      | some startKey =>
        let valueEnd := keyEnd + vlen
        match cmpBytes startKey key with
        | Ordering.eq => Except.ok (some (keyEnd, valueEnd))
        | Ordering.gt => Except.ok none
        | Ordering.lt => findValueOffsetGo buf key valueEnd
  else Except.ok none
termination_by buf.length - offset
decreasing_by
  simp only [kvLengthEncodedSize] at *
  omega

/-- `find_value_offset_v2(buf, key)` from `src/sstable/ondisk_format.rs`. -/
def findValueOffsetV2 (buf key : List Nat) : Except Err (Option (Nat × Nat)) :=
  findValueOffsetGo buf key 0

/-- Serialization of one `KVLength`-prefixed record as the V2 readers
expect it (`KVLength::serialize_into` followed by the key bytes and the
value bytes, per the layout documented in `src/sstable/ondisk_format.rs`). -/
def kvRecordBytes (k v : List Nat) : List Nat :=
  leBytes 2 k.length ++ leBytes 4 v.length ++ k ++ v

/-- The value-extraction step of `InnerReader::get_with_options`
(`src/sstable/reader.rs` line 338) and of
`MmapUncompressedSSTableReader::get_with_options` (line 646):
`find_value_offset_v2(chunk, key)?.map(|(start, end)| &chunk[start..end])`.
The outer `Option` models panic: `none` means the panicking slice
indexing `&chunk[start..end]` was reached with an out-of-bounds range. -/
def getValueFromChunk (chunk key : List Nat) :
    Option (Except Err (Option (List Nat))) :=
  match findValueOffsetV2 chunk key with
  | Except.error e => some (Except.error e)
  | Except.ok none => some (Except.ok none)
  | Except.ok (some (s, e)) =>
    match sliceIdx chunk s e with
    | some v => some (Except.ok (some v))
    | none => none

/-- The magic constant `MAGIC = b"\x80LSM"` from
`src/sstable/ondisk_format.rs`. -/
def MAGICbytes : List Nat := [128, 76, 83, 77]

/-- Modelled from the spec: the constant `VERSION_20` matched by
`read_metadata` in `src/sstable/reader.rs` is not defined anywhere in
the provided sources (`src/sstable/types.rs` only defines `VERSION_30`);
the spec fixes the accepted on-disk version at `2.0`. -/
def VERSION_20 : Nat × Nat := (2, 0)

/-- `BloomV2_0` from `src/sstable/ondisk_format.rs`. -/
structure BloomV2_0 where
  bitmap_bits : Nat
  k_num : Nat
  sip0 : Nat × Nat
  sip1 : Nat × Nat
  deriving DecidableEq, Repr

/-- `MetaV2_0` from `src/sstable/ondisk_format.rs`.  The `compression`
tag is kept as its `u32` bincode value (`0 = None`, `1 = Zlib`,
`2 = Snappy`). -/
structure MetaV2_0 where
  data_len : Nat
  index_len : Nat
  bloom_len : Nat
  items : Nat
  compression : Nat
  finished : Bool
  checksum : Nat
  bloom : BloomV2_0
  deriving DecidableEq, Repr

/-- Reads one `w`-byte little-endian unsigned integer from the front of
a byte buffer, as `bincode::deserialize_from` does for fixed-width
integer fields; fails on EOF. -/
def parseU (w : Nat) (buf : List Nat) : Option (Nat × List Nat) :=
  if w ≤ buf.length then some (leVal (buf.take w), buf.drop w) else none

/-- Bincode deserialization of `MetaV2_0` from the front of a byte
buffer: four `u64` fields, the `u32` enum tag of `Compression` (which
must be 0, 1 or 2), one `bool` byte (which must be 0 or 1), the `u32`
checksum, and the `BloomV2_0` fields. -/
def parseMetaV2 (buf : List Nat) : Option (MetaV2_0 × List Nat) := do
  let (dataLen, buf) ← parseU 8 buf
  let (indexLen, buf) ← parseU 8 buf
  let (bloomLen, buf) ← parseU 8 buf
  let (items, buf) ← parseU 8 buf
  let (ctag, buf) ← parseU 4 buf
  if ctag ≥ 3 then none else
  let (fin, buf) ← parseU 1 buf
  if fin ≥ 2 then none else
  let (checksum, buf) ← parseU 4 buf
  let (bbits, buf) ← parseU 8 buf
  let (knum, buf) ← parseU 4 buf
  let (s00, buf) ← parseU 8 buf
  let (s01, buf) ← parseU 8 buf
  let (s10, buf) ← parseU 8 buf
  let (s11, buf) ← parseU 8 buf
  some (⟨dataLen, indexLen, bloomLen, items, ctag, fin = 1, checksum,
    ⟨bbits, knum, (s00, s01), (s10, s11)⟩⟩, buf)

/-- `read_metadata` from `src/sstable/reader.rs` lines 47-71: read and
check the 4 magic bytes, deserialize the `version {u16, u16}` pair,
accept only `VERSION_20`, then deserialize `MetaV2_0`.  Returns the
metadata together with the resulting offset (the start of the data
region).  Every reader variant (`SSTableReader`,
`ConcurrentSSTableReader`, `MmapUncompressedSSTableReader`) calls this
first when opening a file. -/
def readMetadata (file : List Nat) : Except Err (MetaV2_0 × Nat) :=
  match parseU 4 file with
  | none => Except.error (Err.invalidData "not an sstable")
  | some (_, _) =>
    if file.take 4 ≠ MAGICbytes then Except.error (Err.invalidData "not an sstable")
    else
      match parseU 2 (file.drop 4) with
      | none => Except.error Err.bincode
      | some (major, rest) =>
        match parseU 2 rest with
        | none => Except.error Err.bincode
        | some (minor, rest) =>
          if (major, minor) = VERSION_20 then
            match parseMetaV2 rest with
            | none => Except.error Err.bincode
            | some (meta, remaining) =>
              Except.ok (meta, file.length - remaining.length)
          else Except.error (Err.unsupportedVersion major minor)

/-- `MetaV1_0` bincode serialization as written by `SSTableWriterV1`
(`src/sstable/mod.rs` struct `MetaV1_0`, used by `src/sstable/writer.rs`):
`data_len : u64, index_len : u64, items : u64, compression : u32 tag,
finished : u8, checksum : u32` — 33 bytes. -/
def metaV1Bytes (dataLen indexLen items ctag : Nat) (finished : Bool)
    (checksum : Nat) : List Nat :=
  leBytes 8 dataLen ++ leBytes 8 indexLen ++ leBytes 8 items ++
    leBytes 4 ctag ++ [if finished then 1 else 0] ++ leBytes 4 checksum

/-- State of `SSTableWriterV1` from `src/sstable/writer.rs`, specialized
to `Compression::None` (the `UncompressedWriter` wrapper, whose
`relative_offset` is the current absolute offset minus the data-region
start 41, and whose `reset_compression_context` returns the current
absolute offset).  `out` is the bytes written so far, `sparse` the
`BTreeMap<String, usize>` sparse index as a sorted association list. -/
structure WriterV1State where
  out : List Nat
  items : Nat
  sparse : List (List Nat × Nat)
  flushEvery : Nat

/-- `SSTableWriterV1::new` (`src/sstable/writer.rs` lines 128-156):
write `MAGIC`, then `VERSION_10 = {major: 1, minor: 0}`, then the
placeholder `MetaV1_0::default()` (with the configured compression tag,
here `None = 0`).  `meta_start = 8`, `data_start = 41`. -/
def writerV1New (flushEvery : Nat) : WriterV1State :=
  { out := MAGICbytes ++ leBytes 2 1 ++ leBytes 2 0 ++ metaV1Bytes 0 0 0 0 false 0
    items := 0
    sparse := []
    flushEvery := flushEvery }

/-- `BTreeMap::insert` on a sorted association list keyed by byte
strings. -/
def btreeInsert (m : List (List Nat × Nat)) (k : List Nat) (v : Nat) :
    List (List Nat × Nat) :=
  match m with
  | [] => [(k, v)]
  | (k1, v1) :: rest =>
    match cmpBytes k k1 with
    | Ordering.lt => (k, v) :: (k1, v1) :: rest
    | Ordering.eq => (k, v) :: rest
    | Ordering.gt => (k1, v1) :: btreeInsert rest k v

/-- `SSTableWriterV1::set` (`src/sstable/writer.rs` lines 188-202): when
`relative_offset() + value.len() >= flush_every` or this is the first
record, record `(key, current offset)` in the sparse index; then append
the key bytes, one zero byte, the value length as `u64` little-endian
(bincode of `Length(value.len() as u64)`), and the value bytes. -/
def writerV1Set (st : WriterV1State) (k v : List Nat) : WriterV1State :=
  let st1 :=
    if st.out.length - 41 + v.length ≥ st.flushEvery ∨ st.items = 0 then
      { st with sparse := btreeInsert st.sparse k st.out.length }
    else st
  { st1 with
    out := st1.out ++ k ++ [0] ++ leBytes 8 v.length ++ v,
    items := st1.items + 1 }

/-- `SSTableWriterV1::write_index` (= `close`, `src/sstable/writer.rs`
lines 157-185): append each sparse-index entry as key bytes, one zero
byte and the `u64` offset; then seek to `meta_start = 8` and overwrite
the 33 metadata bytes with the final lengths and `finished = true`. -/
def writerV1Close (st : WriterV1State) : List Nat :=
  let indexStart := st.out.length
  let out1 := st.sparse.foldl (fun o e => o ++ e.1 ++ [0] ++ leBytes 8 e.2) st.out
  let indexLen := out1.length - indexStart
  out1.take 8 ++ metaV1Bytes (indexStart - 41) indexLen st.items 0 true 0 ++
    out1.drop 41

/-- Writing an ascending sequence of pairs with `SSTableWriterV1` under
`Compression::None`: `new`, one `set` per pair, then `close`. -/
def writeFileV1 (pairs : List (List Nat × List Nat)) (flushEvery : Nat) :
    List Nat :=
  writerV1Close (pairs.foldl (fun st p => writerV1Set st p.1 p.2)
    (writerV1New flushEvery))

/-- Number of bytes one `nix::sys::uio::pread(fd, &mut buf, offset)`
call returns: the operating system copies `min(buf.len(), bytes left in
the file, what it chooses to return on this call)` bytes of the file
starting at `offset` into the FRONT of `buf`.  `allowed` is the OS
choice for this call, at least 1 (POSIX `pread` returns 0 only at end of
file). -/
def preadSize (file buf : List Nat) (offset allowed : Nat) : Nat :=
  min (min buf.length (file.length - offset)) allowed

/-- The buffer after one `pread` call that read `size` bytes: the front
of `buf` is overwritten with the file bytes at `[offset, offset+size)`. -/
def preadFill (file buf : List Nat) (offset size : Nat) : List Nat :=
  (file.drop offset).take size ++ buf.drop size

/-- `pread_exact` from `src/sstable/concurrent_page_cache.rs` lines
13-27, translated verbatim: loop `while remaining > 0`, each iteration
calling `pread(fd, &mut buf, offset)` — note the source passes the WHOLE
buffer every time, not the unfilled tail — erroring with `INVALID_DATA`
when a read returns 0, and updating `remaining -= size` (wrapping `u64`
subtraction) and `offset += size`.  `sched` gives the OS size cap for
each successive `pread` call (clamped to at least 1). -/
def preadExactGo (file buf : List Nat) (offset remaining : Nat)
    (sched : Nat → Nat) (k : Nat) : Except Err (List Nat) :=
  if remaining = 0 then Except.ok buf
  else if 2 ^ 63 ≤ offset then Except.error Err.intConversion
  else if _h : preadSize file buf offset (max (sched k) 1) = 0 then
    Except.error INVALID_DATA
  else
    preadExactGo file
      (preadFill file buf offset (preadSize file buf offset (max (sched k) 1)))
      (offset + preadSize file buf offset (max (sched k) 1))
      ((remaining +
        (2 ^ 64 - preadSize file buf offset (max (sched k) 1) % 2 ^ 64)) % 2 ^ 64)
      sched (k + 1)
termination_by file.length - offset
decreasing_by
  simp only [preadSize] at *
  omega

/-- `pread_exact(fd, offset, length)` with the file contents made
explicit and the OS split schedule `sched` as an oracle. -/
def preadExact (file : List Nat) (offset length : Nat) (sched : Nat → Nat) :
    Except Err (List Nat) :=
  preadExactGo file (List.replicate length 0) offset length sched 0

/-- `BTreeMap::range((Unbounded, Included(key))).next_back()` on the
sorted entry list of the map: the last entry whose key is `≤ key`
(`src/sstable/reader.rs` lines 99-106). -/
def rangeLeLast (m : List (List Nat × Nat)) (key : List Nat) :
    Option (List Nat × Nat) :=
  (m.filter fun e => cmpBytes e.1 key ≠ Ordering.gt).getLast?

/-- `BTreeMap::range((Excluded(key), Unbounded)).next()` on the sorted
entry list of the map: the first entry whose key is `> key`
(`src/sstable/reader.rs` lines 108-115). -/
def rangeGtFirst (m : List (List Nat × Nat)) (key : List Nat) :
    Option (List Nat × Nat) :=
  (m.filter fun e => cmpBytes e.1 key = Ordering.gt).head?

/-- `find_bounds(map, key, end_default)` from `src/sstable/reader.rs`
lines 92-117, over the sorted entry list of the `BTreeMap` (this is the
shared implementation behind `MemIndex::find_bounds` and
`OwnedIndex::find_bounds`). -/
def findBounds (m : List (List Nat × Nat)) (key : List Nat) (endDefault : Nat) :
    Option (Nat × Nat) :=
  match rangeLeLast m key with
  | none => none
  | some (_, start) =>
    let stop :=
      match rangeGtFirst m key with
      | some (_, o) => o
      | none => endDefault
    some (start, stop)

/-- The contents of one `Inner` cell of the concurrent LRU cache
(`src/sstable/concurrent_lru.rs`): the `RwLock<Option<Bytes>>` payload.
Byte buffers are abstracted to `Nat` identifiers. -/
abbrev InnerCell : Type := Option Nat

/-- One shard of `ConcurrentLRUCache`: the `lru::LruCache<u64,
Arc<Inner>>` behind a mutex, modelled as an association list from
offsets to cell contents (`ReadCache::Unbounded`, the default; eviction
is not modelled). -/
abbrev LRUShard : Type := List (Nat × InnerCell)

/-- `ConcurrentLRUCache` from `src/sstable/concurrent_lru.rs`:
`caches : Option<Vec<Mutex<LruCache>>>`. -/
structure ConcLRU where
  caches : Option (List LRUShard)
  deriving DecidableEq

/-- `ConcurrentLRUCache::new(shards, cache)` (`src/sstable/concurrent_lru.rs`
lines 48-55): `None` disables caching entirely; `Some` creates `shards`
empty shard caches. -/
def concLRUNew (shards : Nat) (cache : Option Unit) : ConcLRU :=
  { caches := cache.map fun _ => List.replicate shards [] }

/-- Association-list lookup, modelling `lru.get(&offset)`. -/
def shardLookup (s : LRUShard) (offset : Nat) : Option InnerCell :=
  match s.find? (fun e => e.1 = offset) with
  | some e => some e.2
  | none => none

/-- Association-list store, modelling `lru.put(offset, inner)` followed
by later `Inner` mutation: sets the cell for `offset`. -/
def shardStore (s : LRUShard) (offset : Nat) (c : InnerCell) : LRUShard :=
  match s with
  | [] => [(offset, c)]
  | e :: rest => if e.1 = offset then (offset, c) :: rest
    else e :: shardStore rest offset c

/-- Sequential (single-thread) semantics of
`ConcurrentLRUCache::get_or_insert(offset, func)`
(`src/sstable/concurrent_lru.rs` lines 63-91 together with
`Inner::get_or_insert`, lines 18-38).  Returns the result, the new cache
state, the number of times `func` ran, and whether a shard mutex was
locked.  With `caches = None` the function returns `func()` immediately;
otherwise it locks the shard selected by hashing the offset, looks up or
installs the entry, unlocks, and then (under the entry lock) returns the
cached value or computes and stores it; when `func` fails the installed
entry stays empty. -/
def concLRUGetOrInsert (c : ConcLRU) (hash : Nat → Nat) (offset : Nat)
    (func : Except Err Nat) : Except Err Nat × ConcLRU × Nat × Bool :=
  match c.caches with
  | none => (func, c, 1, false)
  | some shards =>
    let idx := hash offset % shards.length
    let shard := shards.getD idx []
    match shardLookup shard offset with
    | some (some v) => (Except.ok v, c, 0, true)
    | some none =>
      match func with
      | Except.ok v =>
        (Except.ok v,
          { caches := some (shards.set idx (shardStore shard offset (some v))) },
          1, true)
      | Except.error e => (Except.error e, c, 1, true)
    | none =>
      match func with
      | Except.ok v =>
        (Except.ok v,
          { caches := some (shards.set idx (shardStore shard offset (some v))) },
          1, true)
      | Except.error e =>
        (Except.error e,
          { caches := some (shards.set idx (shardStore shard offset none)) },
          1, true)

/-- Program counter of one thread running
`ConcurrentLRUCache::get_or_insert` for one fixed offset whose entry
stays resident (`src/sstable/concurrent_lru.rs`): acquire the shard
mutex, look up or install the `Arc<Inner>` while holding it, release it
(`shardAcq`/`shardHeld`); take the entry read lock and check
(`tryRead`); take the entry write lock and re-check (`tryWrite`); run
the compute callback under the write lock (`computing`); finish with the
returned bytes (`done`). -/
inductive TState where
  | shardAcq
  | shardHeld
  | tryRead
  | tryWrite
  | computing
  | done (v : Nat)
  deriving DecidableEq, Repr

/-- Global state of the concurrent cache for one offset: the thread
program counters, the `RwLock<Option<Bytes>>` contents of the entry, the
holder of the shard mutex, the holder of the entry write lock, and the
number of compute-callback invocations so far. -/
structure CacheSys where
  threads : List TState
  value : Option Nat
  slock : Option Nat
  wlock : Option Nat
  count : Nat
  deriving DecidableEq, Repr

/-- Interleaving semantics of concurrent `get_or_insert` calls on one
resident entry, following `ConcurrentLRUCache::get_or_insert` (lines
63-91) and `Inner::get_or_insert` (lines 18-38) of
`src/sstable/concurrent_lru.rs`.  `f` is the compute result.  Lock
acquisition plus the check done under the lock is one atomic step; the
compute callback itself is a separate non-atomic phase entered while
holding the entry write lock and after releasing the shard mutex. -/
inductive CacheStep (f : Nat) : CacheSys → CacheSys → Prop where
  | shardAcquire (s : CacheSys) (i : Nat) :
      s.threads.get? i = some TState.shardAcq → s.slock = none →
      CacheStep f s
        { s with threads := s.threads.set i TState.shardHeld
                 slock := some i }
  | shardRelease (s : CacheSys) (i : Nat) :
      s.threads.get? i = some TState.shardHeld →
      CacheStep f s
        { s with threads := s.threads.set i TState.tryRead
                 slock := none }
  | readHit (s : CacheSys) (i v : Nat) :
      s.threads.get? i = some TState.tryRead → s.value = some v →
      CacheStep f s { s with threads := s.threads.set i (TState.done v) }
  | readMiss (s : CacheSys) (i : Nat) :
      s.threads.get? i = some TState.tryRead → s.value = none →
      CacheStep f s { s with threads := s.threads.set i TState.tryWrite }
  | writeHit (s : CacheSys) (i v : Nat) :
      s.threads.get? i = some TState.tryWrite → s.wlock = none →
      s.value = some v →
      CacheStep f s { s with threads := s.threads.set i (TState.done v) }
  | writeMiss (s : CacheSys) (i : Nat) :
      s.threads.get? i = some TState.tryWrite → s.wlock = none →
      s.value = none →
      CacheStep f s
        { s with threads := s.threads.set i TState.computing
                 wlock := some i
                 count := s.count + 1 }
  | storeResult (s : CacheSys) (i : Nat) :
      s.threads.get? i = some TState.computing → s.wlock = some i →
      CacheStep f s
        { s with threads := s.threads.set i (TState.done f)
                 value := some f
                 wlock := none }

/-- Initial state: `n` threads about to call `get_or_insert` for the
same offset, entry installed empty, no lock held, compute never run. -/
def cacheInit (n : Nat) : CacheSys :=
  { threads := List.replicate n TState.shardAcq,
    value := none,
    slock := none,
    wlock := none,
    count := 0 }

/-- Reachability under every interleaving of the `n` threads. -/
def cacheReachable (f n : Nat) (s : CacheSys) : Prop :=
  Relation.ReflTransGen (CacheStep f) (cacheInit n) s

/-- Inductive invariant of the concurrent cache system: a thread is in
the compute phase exactly when it holds the entry write lock; with the
entry still empty the compute count equals 1 or 0 according to whether
the write lock is held; once the entry is filled the compute count is
exactly 1 and the write lock is free; and a thread is in the shard
lookup phase exactly when it holds the shard mutex. -/
def cacheInv (s : CacheSys) : Prop :=
  (∀ i, s.threads.get? i = some TState.computing ↔ s.wlock = some i) ∧
  (s.value = none →
    s.count = (match s.wlock with | some _ => 1 | none => 0)) ∧
  (∀ v, s.value = some v → s.count = 1 ∧ s.wlock = none) ∧
  (∀ i, s.threads.get? i = some TState.shardHeld ↔ s.slock = some i)

/-- Length of `leBytes`. -/
theorem leBytes_length (w n : Nat) : (leBytes w n).length = w := by
  simp [leBytes]

/-- Decoding inverts the 2-byte little-endian encoding up to `2^16`. -/
theorem leVal_leBytes_two (n : Nat) : leVal (leBytes 2 n) = n % 65536 := by
  simp only [leBytes, List.range_succ, List.range_zero]
  simp only [List.map_append, List.map_cons, List.map_nil, List.nil_append,
    List.cons_append, leVal]
  omega

/-- Appending a record in `writerV1Set` only appends bytes to the
output. -/
theorem writerV1Set_out (st : WriterV1State) (k v : List Nat) :
    (writerV1Set st k v).out = st.out ++ (k ++ [0] ++ leBytes 8 v.length ++ v) := by
  simp only [writerV1Set]
  split <;> simp

/-- Folding index entries over the output only appends bytes. -/
theorem foldl_append_out (l : List (List Nat × Nat)) (o : List Nat) :
    ∃ r, l.foldl (fun o e => o ++ e.1 ++ [0] ++ leBytes 8 e.2) o = o ++ r := by
  induction l generalizing o with
  | nil => exact ⟨[], by simp⟩
  | cons e rest ih =>
    obtain ⟨r, hr⟩ := ih (o ++ e.1 ++ [0] ++ leBytes 8 e.2)
    refine ⟨e.1 ++ [0] ++ leBytes 8 e.2 ++ r, ?_⟩
    simp only [List.foldl_cons]
    rw [hr]
    simp [List.append_assoc]

/-- Every file produced by `SSTableWriterV1` starts with the magic bytes
followed by the version pair `(1, 0)`: `new` writes them first, `set`
only appends, and the `close` backpatch overwrites bytes 8..41 only. -/
theorem writeFileV1_preamble (pairs : List (List Nat × List Nat)) (fe : Nat) :
    ∃ r, writeFileV1 pairs fe =
      MAGICbytes ++ leBytes 2 1 ++ leBytes 2 0 ++ r := by
  have hsets : ∀ (ps : List (List Nat × List Nat)) (st : WriterV1State),
      (∃ r, st.out = MAGICbytes ++ leBytes 2 1 ++ leBytes 2 0 ++ r) →
      ∃ r, (ps.foldl (fun st p => writerV1Set st p.1 p.2) st).out =
        MAGICbytes ++ leBytes 2 1 ++ leBytes 2 0 ++ r := by
    intro ps
    induction ps with
    | nil => intro st h; exact h
    | cons p rest ih =>
      intro st h
      obtain ⟨r, hr⟩ := h
      refine ih (writerV1Set st p.1 p.2) ?_
      refine ⟨r ++ (p.1 ++ [0] ++ leBytes 8 p.2.length ++ p.2), ?_⟩
      simp [writerV1Set_out, hr]
  obtain ⟨r, hr⟩ := hsets pairs (writerV1New fe)
    ⟨metaV1Bytes 0 0 0 0 false 0, by simp [writerV1New]⟩
  simp only [writeFileV1, writerV1Close]
  obtain ⟨r2, hr2⟩ := foldl_append_out
    ((pairs.foldl (fun st p => writerV1Set st p.1 p.2) (writerV1New fe)).sparse)
    ((pairs.foldl (fun st p => writerV1Set st p.1 p.2) (writerV1New fe)).out)
  rw [hr2, hr]
  have hpre : (MAGICbytes ++ leBytes 2 1 ++ leBytes 2 0).length = 8 := by decide
  have htk : ∀ tail : List Nat,
      (MAGICbytes ++ leBytes 2 1 ++ leBytes 2 0 ++ tail).take 8 =
        MAGICbytes ++ leBytes 2 1 ++ leBytes 2 0 := fun tail =>
    List.take_left' hpre
  rw [List.append_assoc (MAGICbytes ++ leBytes 2 1 ++ leBytes 2 0) r r2, htk]
  exact ⟨_, by rw [List.append_assoc]⟩

/-- Metadata parsing rejects any version pair other than `(2, 0)` with
`UnsupportedVersion`, whatever follows the preamble. -/
theorem readMetadata_version_reject (ma mi : Nat) (rest : List Nat)
    (hma : ma < 65536) (hmi : mi < 65536) (hne : ¬(ma = 2 ∧ mi = 0)) :
    readMetadata (MAGICbytes ++ leBytes 2 ma ++ leBytes 2 mi ++ rest) =
      Except.error (Err.unsupportedVersion ma mi) := by
  have hv2 : ∀ n : Nat, (leBytes 2 n).length = 2 := fun n => leBytes_length 2 n
  have hm4 : MAGICbytes.length = 4 := by decide
  have h1 : parseU 4 (MAGICbytes ++ (leBytes 2 ma ++ (leBytes 2 mi ++ rest))) =
      some (leVal MAGICbytes, leBytes 2 ma ++ (leBytes 2 mi ++ rest)) := by
    simp only [parseU]
    rw [if_pos (by rw [List.length_append, hm4]; omega), List.take_left' hm4,
      List.drop_left' hm4]
  have h2 : parseU 2 (leBytes 2 ma ++ (leBytes 2 mi ++ rest)) =
      some (ma, leBytes 2 mi ++ rest) := by
    simp only [parseU]
    rw [if_pos (by rw [List.length_append, hv2]; omega), List.take_left' (hv2 ma),
      List.drop_left' (hv2 ma), leVal_leBytes_two, Nat.mod_eq_of_lt hma]
  have h3 : parseU 2 (leBytes 2 mi ++ rest) = some (mi, rest) := by
    simp only [parseU]
    rw [if_pos (by rw [List.length_append, hv2]; omega), List.take_left' (hv2 mi),
      List.drop_left' (hv2 mi), leVal_leBytes_two, Nat.mod_eq_of_lt hmi]
  have htake4 : (MAGICbytes ++ (leBytes 2 ma ++ (leBytes 2 mi ++ rest))).take 4 =
      MAGICbytes := List.take_left' hm4
  have hdrop4 : (MAGICbytes ++ (leBytes 2 ma ++ (leBytes 2 mi ++ rest))).drop 4 =
      leBytes 2 ma ++ (leBytes 2 mi ++ rest) := List.drop_left' hm4
  have hne2 : ((ma, mi) : Nat × Nat) ≠ VERSION_20 := by
    simp only [VERSION_20, Ne, Prod.mk.injEq]
    exact hne
  simp only [List.append_assoc]
  simp only [readMetadata, h1, h2, h3, htake4, hdrop4, ne_eq, not_true_eq_false,
    if_false, if_neg hne2]

/-- CLAIM C1.  The claim states the write-then-read round trip: pairs
written through `set`/`close` under any `WriteOptions` can be read back
with `get`.  The writer in `src/sstable/writer.rs` emits the version
pair `(1, 0)` and V1-format records, while `read_metadata` — the first
step of open for every reader variant — accepts only version `(2, 0)`:
every file the writer produces is rejected on open with
`UnsupportedVersion`, so `get` never returns `Some(v)` for any written
pair.  (Independently, the chunk-scan defect of CLAIM C2 would break the
round trip for mixed-size records even with a version-2 writer.) -/
theorem roundtrip_fails_writer_files_rejected
    (pairs : List (List Nat × List Nat)) (fe : Nat) :
    readMetadata (writeFileV1 pairs fe) =
      Except.error (Err.unsupportedVersion 1 0) := by
  obtain ⟨r, hr⟩ := writeFileV1_preamble pairs fe
  rw [hr]
  exact readMetadata_version_reject 1 0 r (by omega) (by omega) (by omega)

/-- CLAIM C1 witness: the rejection evaluated at one concrete ascending
input. -/
theorem roundtrip_fails_writer_files_rejected_witness :
    readMetadata (writeFileV1 [([97], []), ([98, 99], [120])] 4096) =
      Except.error (Err.unsupportedVersion 1 0) :=
  roundtrip_fails_writer_files_rejected [([97], []), ([98, 99], [120])] 4096

/-- CLAIM C5.  The claim states that the writer emits version
`(major = 2, minor = 0)` and that every reader rejects any other version
pair with `UnsupportedVersion`.  The reader half holds: `read_metadata`
errors with `UnsupportedVersion` on every version pair other than
`(2, 0)` (first conjunct; the accepted constant `VERSION_20` is missing
from the sources and modelled from the spec as `(2, 0)`).  The writer
half fails: `SSTableWriterV1::new` serializes `VERSION_10 = (1, 0)`
(second conjunct), which differs from the encoding of `(2, 0)` (third
conjunct). -/
theorem version_two_required_writer_emits_one :
    (∀ ma mi rest, ma < 65536 → mi < 65536 → ¬(ma = 2 ∧ mi = 0) →
      readMetadata (MAGICbytes ++ leBytes 2 ma ++ leBytes 2 mi ++ rest) =
        Except.error (Err.unsupportedVersion ma mi)) ∧
    (∀ fe, ((writerV1New fe).out.drop 4).take 4 = leBytes 2 1 ++ leBytes 2 0) ∧
    leBytes 2 1 ++ leBytes 2 0 ≠ leBytes 2 2 ++ leBytes 2 0 := by
  refine ⟨readMetadata_version_reject, ?_, by decide⟩
  intro fe
  rfl

/-- CLAIM C5 witness: the theorem applied at the concrete version pair
`(3, 0)` and the empty tail. -/
theorem version_two_required_writer_emits_one_witness :
    readMetadata (MAGICbytes ++ leBytes 2 3 ++ leBytes 2 0 ++ []) =
      Except.error (Err.unsupportedVersion 3 0) :=
  version_two_required_writer_emits_one.1 3 0 [] (by omega) (by omega)
    (by omega)

/-- CLAIM C2.  The claim states that the chunk scan parses each
successive record's OWN `KVLength` header at the current scan position
and returns the value range of the record whose key equals the query.
The code instead deserializes the header from the start of the chunk on
every iteration (`bincode::deserialize::<KVLength>(&buf)` in
`src/sstable/ondisk_format.rs` line 125), so on this well-formed
two-record chunk — records `("a", "")` and `("bc", "x")`, keys strictly
ascending — querying the second key returns `Err(INVALID_DATA)` instead
of the value range `(15, 16)` of `"x"`. -/
theorem find_value_offset_v2_reads_header_from_chunk_start :
    kvRecordBytes [97] [] ++ kvRecordBytes [98, 99] [120] =
      [1, 0, 0, 0, 0, 0, 97, 2, 0, 1, 0, 0, 0, 98, 99, 120] ∧
    sliceGet (kvRecordBytes [97] [] ++ kvRecordBytes [98, 99] [120]) 15 16 =
      some [120] ∧
    findValueOffsetV2 (kvRecordBytes [97] [] ++ kvRecordBytes [98, 99] [120])
      [98, 99] = Except.error INVALID_DATA := by
  refine ⟨by decide, by decide, ?_⟩
  simp only [findValueOffsetV2, kvRecordBytes, leBytes, List.range_succ]
  norm_num
  rw [findValueOffsetGo]
  norm_num [deserializeKVLength, kvLengthEncodedSize, sliceGet, leVal, cmpBytes]
  rw [findValueOffsetGo]
  norm_num [deserializeKVLength, kvLengthEncodedSize, sliceGet, leVal, cmpBytes]
  rw [findValueOffsetGo]
  norm_num [deserializeKVLength, kvLengthEncodedSize, sliceGet, leVal, cmpBytes,
    INVALID_DATA]

/-- CLAIM C6.  The claim states that an accepted `set(key, value)`
appends `key_len : u16 LE | value_len : u32 LE | key | value`.
The writer in `src/sstable/writer.rs` instead appends the key bytes, a
zero byte, the value length as `u64` little-endian, and the value bytes
— for `key = "a"`, `value = "b"` that is 11 bytes instead of the 8-byte
`KVLength`-prefixed record the readers parse. -/
theorem writer_set_record_layout :
    (∀ st k v, (writerV1Set st k v).out =
      st.out ++ (k ++ [0] ++ leBytes 8 v.length ++ v)) ∧
    [97] ++ [0] ++ leBytes 8 1 ++ [98] = [97, 0, 1, 0, 0, 0, 0, 0, 0, 0, 98] ∧
    kvRecordBytes [97] [98] = [1, 0, 1, 0, 0, 0, 97, 98] ∧
    [97, 0, 1, 0, 0, 0, 0, 0, 0, 0, 98] ≠ [1, 0, 1, 0, 0, 0, 97, 98] := by
  refine ⟨?_, by decide, by decide, by decide⟩
  intro st k v
  simp only [writerV1Set]
  split <;> simp

/-- CLAIM C8.  The claim states that every length header is compared
against the remaining buffer before the bytes it describes are
accessed and that `get` never panics on malformed input.  On the
malformed single-record chunk whose header claims a 100-byte value with
only 7 bytes present, `find_value_offset_v2` returns the unchecked range
`(7, 107)` and the caller in `InnerReader::get_with_options` /
`MmapUncompressedSSTableReader::get_with_options` evaluates
`&chunk[7..107]`, which panics (modelled as `none`). -/
theorem get_panics_on_overrunning_value_length :
    findValueOffsetV2 [1, 0, 100, 0, 0, 0, 97] [97] =
      Except.ok (some (7, 107)) ∧
    getValueFromChunk [1, 0, 100, 0, 0, 0, 97] [97] = none := by
  have h : findValueOffsetV2 [1, 0, 100, 0, 0, 0, 97] [97] =
      Except.ok (some (7, 107)) := by
    simp only [findValueOffsetV2]
    rw [findValueOffsetGo]
    norm_num [deserializeKVLength, kvLengthEncodedSize, sliceGet, leVal, cmpBytes]
  refine ⟨h, ?_⟩
  simp [getValueFromChunk, h, sliceIdx, sliceGet]

/-- CLAIM C4.  The claim states that `pread_exact` fills the buffer with
the file contents at `[offset, offset + length)` for every way the
operating system splits the read.  The source passes the whole buffer to
every `pread` call instead of the unfilled tail, so when the OS serves a
4-byte read at offset 0 as two 2-byte reads, the second read overwrites
the first two bytes: the result is `[30, 40, 0, 0]` instead of
`[10, 20, 30, 40]`. -/
theorem pread_exact_overwrites_on_partial_read :
    preadExact [10, 20, 30, 40] 0 4 (fun _ => 2) = Except.ok [30, 40, 0, 0] := by
  rw [preadExact, preadExactGo]
  norm_num [preadSize, preadFill]
  rw [preadExactGo]
  norm_num [preadSize, preadFill]
  rw [preadExactGo]
  norm_num
  decide

/-- CLAIM C10.  With `cache = None`, `ConcurrentLRUCache::get_or_insert`
returns `func()` directly: the state is unchanged (nothing is stored),
no shard lock is taken, and the callback runs exactly once — so repeated
calls recompute every time.  By contrast (second and third conjuncts),
with a cache present a second call for the same offset finds the stored
value and runs the callback zero times. -/
theorem concurrent_lru_cache_none_passthrough :
    (∀ shards hash offset func,
      concLRUGetOrInsert (concLRUNew shards none) hash offset func =
        (func, concLRUNew shards none, 1, false)) ∧
    (concLRUGetOrInsert (concLRUNew 1 (some ())) (fun _ => 0) 5
        (Except.ok 42)).2.2.1 = 1 ∧
    (concLRUGetOrInsert
      (concLRUGetOrInsert (concLRUNew 1 (some ())) (fun _ => 0) 5
        (Except.ok 42)).2.1
      (fun _ => 0) 5 (Except.ok 42)).2.2.1 = 0 := by
  refine ⟨?_, by decide, by decide⟩
  intro shards hash offset func
  rfl

/-- CLAIM C3.  The claim states that any file whose metadata has
`finished = false` is rejected on open with `InvalidData`.  No reader
checks the flag: `read_metadata` accepts this well-formed unfinished
file (version 2.0, all-zero metadata, `finished = 0`) and open proceeds
to construct a reader over it. -/
theorem read_metadata_accepts_unfinished_file :
    readMetadata (MAGICbytes ++ [2, 0, 0, 0] ++ List.replicate 85 0) =
      Except.ok (⟨0, 0, 0, 0, 0, false, 0, ⟨0, 0, (0, 0), (0, 0)⟩⟩, 93) ∧
    (⟨0, 0, 0, 0, 0, false, 0, ⟨0, 0, (0, 0), (0, 0)⟩⟩ : MetaV2_0).finished =
      false := by
  exact ⟨by rfl, rfl⟩

/-- Byte-string comparison is `eq` exactly on equal strings. -/
theorem cmpBytes_eq_iff (a : List Nat) : ∀ b, cmpBytes a b = Ordering.eq ↔ a = b := by
  induction a with
  | nil => intro b; cases b <;> simp [cmpBytes]
  | cons x xs ih =>
    intro b
    cases b with
    | nil => simp [cmpBytes]
    | cons y ys =>
      simp only [cmpBytes, List.cons.injEq]
      rcases Nat.lt_trichotomy x y with h | h | h
      · rw [if_pos h]
        constructor
        · intro hc; exact absurd hc (by decide)
        · intro hc; exact absurd hc.1 (by omega)
      · subst h
        rw [if_neg (by omega), if_neg (by omega), ih ys]
        simp
      · rw [if_neg (by omega), if_pos h]
        constructor
        · intro hc; exact absurd hc (by decide)
        · intro hc; exact absurd hc.1 (by omega)

/-- Byte-string comparison swaps `gt` and `lt` under argument exchange. -/
theorem cmpBytes_gt_iff (a : List Nat) :
    ∀ b, cmpBytes a b = Ordering.gt ↔ cmpBytes b a = Ordering.lt := by
  induction a with
  | nil => intro b; cases b <;> simp [cmpBytes]
  | cons x xs ih =>
    intro b
    cases b with
    | nil => simp [cmpBytes]
    | cons y ys =>
      simp only [cmpBytes]
      rcases Nat.lt_trichotomy x y with h | h | h
      · rw [if_pos h, if_neg (by omega), if_pos h]
        simp
      · subst h
        rw [if_neg (by omega), if_neg (by omega), if_neg (by omega),
          if_neg (by omega)]
        exact ih ys
      · rw [if_neg (by omega), if_pos h, if_pos h]
        simp

/-- In a pairwise-related list, every element is the last one or related
to it. -/
theorem pairwise_getLast_rel {α : Type} {R : α → α → Prop} (l : List α) (a : α)
    (hp : l.Pairwise R) (hl : l.getLast? = some a) :
    ∀ b ∈ l, b = a ∨ R b a := by
  induction l with
  | nil => simp at hl
  | cons x xs ih =>
    cases xs with
    | nil =>
      simp only [List.getLast?_singleton, Option.some.injEq] at hl
      intro b hb
      simp only [List.mem_singleton] at hb
      subst hb
      exact Or.inl hl
    | cons y ys =>
      rw [List.getLast?_cons_cons] at hl
      intro b hb
      rcases List.mem_cons.1 hb with rfl | hb2
      · exact Or.inr ((List.pairwise_cons.1 hp).1 a (List.mem_of_mem_getLast? hl))
      · exact ih (List.pairwise_cons.1 hp).2 hl b hb2

/-- In a pairwise-related list, the head is related to every other
element. -/
theorem pairwise_head_rel {α : Type} {R : α → α → Prop} (l : List α) (a : α)
    (hp : l.Pairwise R) (hl : l.head? = some a) :
    ∀ b ∈ l, b = a ∨ R a b := by
  cases l with
  | nil => simp at hl
  | cons x xs =>
    simp only [List.head?_cons, Option.some.injEq] at hl
    subst hl
    intro b hb
    rcases List.mem_cons.1 hb with rfl | hb2
    · exact Or.inl rfl
    · exact Or.inr ((List.pairwise_cons.1 hp).1 b hb2)

/-- CLAIM C7.  On any strictly-sorted sparse-index entry list,
`find_bounds` returns `none` exactly when the query key is
lexicographically smaller than every indexed key; otherwise it returns
`some (start, end)` where `start` is the offset of the greatest indexed
key that is `≤` the query, and `end` is the offset of the least indexed
key strictly greater than the query, or the supplied default upper bound
when no indexed key is greater. -/
theorem find_bounds_spec (m : List (List Nat × Nat)) (q : List Nat) (d : Nat)
    (hs : m.Pairwise (fun a b => cmpBytes a.1 b.1 = Ordering.lt)) :
    (findBounds m q d = none ↔ ∀ e ∈ m, cmpBytes q e.1 = Ordering.lt) ∧
    (∀ s en, findBounds m q d = some (s, en) →
      (∃ e ∈ m, e.2 = s ∧ cmpBytes e.1 q ≠ Ordering.gt ∧
        ∀ e2 ∈ m, cmpBytes e2.1 q ≠ Ordering.gt →
          cmpBytes e2.1 e.1 ≠ Ordering.gt) ∧
      ((∃ e ∈ m, cmpBytes e.1 q = Ordering.gt) →
        ∃ e ∈ m, e.2 = en ∧ cmpBytes e.1 q = Ordering.gt ∧
          ∀ e2 ∈ m, cmpBytes e2.1 q = Ordering.gt →
            cmpBytes e.1 e2.1 ≠ Ordering.gt) ∧
      ((¬∃ e ∈ m, cmpBytes e.1 q = Ordering.gt) → en = d)) := by
  have hmemL : ∀ e : List Nat × Nat,
      e ∈ m.filter (fun e => cmpBytes e.1 q ≠ Ordering.gt) ↔
        e ∈ m ∧ cmpBytes e.1 q ≠ Ordering.gt := by
    intro e
    simp [List.mem_filter]
  have hmemG : ∀ e : List Nat × Nat,
      e ∈ m.filter (fun e => cmpBytes e.1 q = Ordering.gt) ↔
        e ∈ m ∧ cmpBytes e.1 q = Ordering.gt := by
    intro e
    simp [List.mem_filter]
  constructor
  · constructor
    · intro h e he
      cases hL : rangeLeLast m q with
      | none =>
        rw [rangeLeLast, List.getLast?_eq_none_iff, List.filter_eq_nil_iff] at hL
        have := hL e he
        simp only [decide_eq_true_eq, Decidable.not_not] at this
        exact (cmpBytes_gt_iff e.1 q).1 this
      | some e0 =>
        rw [findBounds, hL] at h
        exact absurd h (by simp)
    · intro h
      have hL : rangeLeLast m q = none := by
        rw [rangeLeLast, List.getLast?_eq_none_iff, List.filter_eq_nil_iff]
        intro e he
        simp only [decide_eq_true_eq, Decidable.not_not]
        exact (cmpBytes_gt_iff e.1 q).2 (h e he)
      rw [findBounds, hL]
  · intro s en h
    cases hL : rangeLeLast m q with
    | none =>
      rw [findBounds, hL] at h
      exact absurd h (by simp)
    | some e0 =>
      rw [findBounds, hL] at h
      have hmax : e0 ∈ m ∧ cmpBytes e0.1 q ≠ Ordering.gt ∧
          ∀ e2 ∈ m, cmpBytes e2.1 q ≠ Ordering.gt →
            cmpBytes e2.1 e0.1 ≠ Ordering.gt := by
        have he0 := (hmemL e0).1 (List.mem_of_mem_getLast? hL)
        refine ⟨he0.1, he0.2, ?_⟩
        intro e2 he2 hle2
        have hrel := pairwise_getLast_rel _ e0 (hs.filter _) hL e2
          ((hmemL e2).2 ⟨he2, hle2⟩)
        rcases hrel with rfl | hrel
        · rw [(cmpBytes_eq_iff e2.1 e2.1).2 rfl]
          decide
        · rw [hrel]
          decide
      cases hG : rangeGtFirst m q with
      | none =>
        rw [hG] at h
        obtain ⟨hs1, he1⟩ := Prod.mk.injEq .. ▸ Option.some.inj h
        rw [rangeGtFirst, List.head?_eq_none_iff, List.filter_eq_nil_iff] at hG
        refine ⟨⟨e0, hmax.1, hs1.symm ▸ rfl, hmax.2.1, hmax.2.2⟩, ?_, fun _ => he1.symm⟩
        intro ⟨e, he, hegt⟩
        have := hG e he
        simp only [decide_eq_true_eq] at this
        exact absurd hegt this
      | some e1 =>
        rw [hG] at h
        obtain ⟨hs1, he1⟩ := Prod.mk.injEq .. ▸ Option.some.inj h
        have he1m := (hmemG e1).1 (List.mem_of_mem_head? hG)
        refine ⟨⟨e0, hmax.1, hs1.symm ▸ rfl, hmax.2.1, hmax.2.2⟩, ?_, ?_⟩
        · intro _
          refine ⟨e1, he1m.1, he1.symm ▸ rfl, he1m.2, ?_⟩
          intro e2 he2 hgt2
          have hrel := pairwise_head_rel _ e1 (hs.filter _) hG e2
            ((hmemG e2).2 ⟨he2, hgt2⟩)
          rcases hrel with rfl | hrel
          · rw [(cmpBytes_eq_iff e2.1 e2.1).2 rfl]
            decide
          · rw [hrel]
            decide
        · intro hno
          exact absurd ⟨e1, he1m.1, he1m.2⟩ hno

/-- CLAIM C7 witness: the characterization applied to the concrete
sorted index `{[1] ↦ 10, [3] ↦ 20}` with query `[2]` and default upper
bound 99. -/
theorem find_bounds_spec_witness :
    (findBounds [([1], 10), ([3], 20)] [2] 99 = none ↔
      ∀ e ∈ [(([1] : List Nat), 10), ([3], 20)],
        cmpBytes [2] e.1 = Ordering.lt) ∧
    (∀ s en, findBounds [([1], 10), ([3], 20)] [2] 99 = some (s, en) →
      (∃ e ∈ [(([1] : List Nat), 10), ([3], 20)], e.2 = s ∧
        cmpBytes e.1 [2] ≠ Ordering.gt ∧
        ∀ e2 ∈ [(([1] : List Nat), 10), ([3], 20)],
          cmpBytes e2.1 [2] ≠ Ordering.gt →
            cmpBytes e2.1 e.1 ≠ Ordering.gt) ∧
      ((∃ e ∈ [(([1] : List Nat), 10), ([3], 20)],
          cmpBytes e.1 [2] = Ordering.gt) →
        ∃ e ∈ [(([1] : List Nat), 10), ([3], 20)], e.2 = en ∧
          cmpBytes e.1 [2] = Ordering.gt ∧
          ∀ e2 ∈ [(([1] : List Nat), 10), ([3], 20)],
            cmpBytes e2.1 [2] = Ordering.gt →
              cmpBytes e.1 e2.1 ≠ Ordering.gt) ∧
      ((¬∃ e ∈ [(([1] : List Nat), 10), ([3], 20)],
          cmpBytes e.1 [2] = Ordering.gt) → en = 99)) :=
  find_bounds_spec [([1], 10), ([3], 20)] [2] 99 (by decide)

/-- Indices with a value in a list are within bounds. -/
theorem get?_lt {l : List TState} {i : Nat} {a : TState}
    (h : l.get? i = some a) : i < l.length :=
  (List.get?_eq_some.mp h).fst

/-- Reading after `set` at an in-bounds index, by cases on the index. -/
theorem get?_set_cases (t : List TState) (i j : Nat) (a : TState)
    (hlen : i < t.length) :
    (t.set i a).get? j = if i = j then some a else t.get? j := by
  by_cases h : i = j
  · subst h
    rw [if_pos rfl]
    exact List.get?_set_eq_of_lt a hlen
  · rw [if_neg h]
    exact List.get?_set_ne a t h

/-- The invariant holds in the initial state. -/
theorem cacheInv_init (n : Nat) : cacheInv (cacheInit n) := by
  refine ⟨?_, ?_, ?_, ?_⟩
  · intro i
    constructor
    · intro hc
      have := List.eq_of_mem_replicate (List.get?_mem hc)
      exact TState.noConfusion this
    · intro hw
      exact Option.noConfusion hw
  · intro _
    rfl
  · intro v hv
    exact Option.noConfusion hv
  · intro i
    constructor
    · intro hc
      have := List.eq_of_mem_replicate (List.get?_mem hc)
      exact TState.noConfusion this
    · intro hw
      exact Option.noConfusion hw

/-- Every step of the concurrent cache system preserves the invariant. -/
theorem cacheStep_inv {f : Nat} {s s2 : CacheSys}
    (hstep : CacheStep f s s2) (hinv : cacheInv s) : cacheInv s2 := by
  obtain ⟨h1, h2, h3, h4⟩ := hinv
  cases hstep with
  | shardAcquire i hti hsl =>
    refine ⟨?_, h2, h3, ?_⟩
    · intro j
      rw [get?_set_cases _ _ _ _ (get?_lt hti)]
      by_cases hij : i = j
      · subst hij
        rw [if_pos rfl]
        constructor
        · intro hc
          exact TState.noConfusion (Option.some.inj hc)
        · intro hw
          have hcontra := (h1 i).mpr hw
          rw [hti] at hcontra
          exact TState.noConfusion (Option.some.inj hcontra)
      · rw [if_neg hij]
        exact h1 j
    · intro j
      rw [get?_set_cases _ _ _ _ (get?_lt hti)]
      by_cases hij : i = j
      · subst hij
        rw [if_pos rfl]
        simp
      · rw [if_neg hij]
        constructor
        · intro hc
          have hcontra := (h4 j).mp hc
          rw [hsl] at hcontra
          exact Option.noConfusion hcontra
        · intro hw
          exact absurd (Option.some.inj hw) hij
  | shardRelease i hti =>
    refine ⟨?_, h2, h3, ?_⟩
    · intro j
      rw [get?_set_cases _ _ _ _ (get?_lt hti)]
      by_cases hij : i = j
      · subst hij
        rw [if_pos rfl]
        constructor
        · intro hc
          exact TState.noConfusion (Option.some.inj hc)
        · intro hw
          have hcontra := (h1 i).mpr hw
          rw [hti] at hcontra
          exact TState.noConfusion (Option.some.inj hcontra)
      · rw [if_neg hij]
        exact h1 j
    · intro j
      rw [get?_set_cases _ _ _ _ (get?_lt hti)]
      by_cases hij : i = j
      · subst hij
        rw [if_pos rfl]
        constructor
        · intro hc
          exact TState.noConfusion (Option.some.inj hc)
        · intro hw
          exact Option.noConfusion hw
      · rw [if_neg hij]
        constructor
        · intro hc
          have hsi := (h4 i).mp hti
          have hsj := (h4 j).mp hc
          rw [hsi] at hsj
          exact absurd (Option.some.inj hsj) hij
        · intro hw
          exact Option.noConfusion hw
  | readHit i v hti hv =>
    refine ⟨?_, h2, h3, ?_⟩
    · intro j
      rw [get?_set_cases _ _ _ _ (get?_lt hti)]
      by_cases hij : i = j
      · subst hij
        rw [if_pos rfl]
        constructor
        · intro hc
          exact TState.noConfusion (Option.some.inj hc)
        · intro hw
          have hcontra := (h1 i).mpr hw
          rw [hti] at hcontra
          exact TState.noConfusion (Option.some.inj hcontra)
      · rw [if_neg hij]
        exact h1 j
    · intro j
      rw [get?_set_cases _ _ _ _ (get?_lt hti)]
      by_cases hij : i = j
      · subst hij
        rw [if_pos rfl]
        constructor
        · intro hc
          exact TState.noConfusion (Option.some.inj hc)
        · intro hw
          have hcontra := (h4 i).mpr hw
          rw [hti] at hcontra
          exact TState.noConfusion (Option.some.inj hcontra)
      · rw [if_neg hij]
        exact h4 j
  | readMiss i hti hv =>
    refine ⟨?_, h2, h3, ?_⟩
    · intro j
      rw [get?_set_cases _ _ _ _ (get?_lt hti)]
      by_cases hij : i = j
      · subst hij
        rw [if_pos rfl]
        constructor
        · intro hc
          exact TState.noConfusion (Option.some.inj hc)
        · intro hw
          have hcontra := (h1 i).mpr hw
          rw [hti] at hcontra
          exact TState.noConfusion (Option.some.inj hcontra)
      · rw [if_neg hij]
        exact h1 j
    · intro j
      rw [get?_set_cases _ _ _ _ (get?_lt hti)]
      by_cases hij : i = j
      · subst hij
        rw [if_pos rfl]
        constructor
        · intro hc
          exact TState.noConfusion (Option.some.inj hc)
        · intro hw
          have hcontra := (h4 i).mpr hw
          rw [hti] at hcontra
          exact TState.noConfusion (Option.some.inj hcontra)
      · rw [if_neg hij]
        exact h4 j
  | writeHit i v hti hw hv =>
    refine ⟨?_, h2, h3, ?_⟩
    · intro j
      rw [get?_set_cases _ _ _ _ (get?_lt hti)]
      by_cases hij : i = j
      · subst hij
        rw [if_pos rfl]
        constructor
        · intro hc
          exact TState.noConfusion (Option.some.inj hc)
        · intro hww
          have hcontra := (h1 i).mpr hww
          rw [hti] at hcontra
          exact TState.noConfusion (Option.some.inj hcontra)
      · rw [if_neg hij]
        exact h1 j
    · intro j
      rw [get?_set_cases _ _ _ _ (get?_lt hti)]
      by_cases hij : i = j
      · subst hij
        rw [if_pos rfl]
        constructor
        · intro hc
          exact TState.noConfusion (Option.some.inj hc)
        · intro hww
          have hcontra := (h4 i).mpr hww
          rw [hti] at hcontra
          exact TState.noConfusion (Option.some.inj hcontra)
      · rw [if_neg hij]
        exact h4 j
  | writeMiss i hti hw hv =>
    refine ⟨?_, ?_, ?_, ?_⟩
    · intro j
      rw [get?_set_cases _ _ _ _ (get?_lt hti)]
      by_cases hij : i = j
      · subst hij
        rw [if_pos rfl]
        simp
      · rw [if_neg hij]
        constructor
        · intro hc
          have hcontra := (h1 j).mp hc
          rw [hw] at hcontra
          exact Option.noConfusion hcontra
        · intro hww
          exact absurd (Option.some.inj hww) hij
    · intro _
      have hc0 := h2 hv
      rw [hw] at hc0
      have hc1 : s.count = 0 := hc0
      show s.count + 1 = 1
      omega
    · intro v hvv
      have hvv2 : s.value = some v := hvv
      rw [hv] at hvv2
      exact Option.noConfusion hvv2
    · intro j
      rw [get?_set_cases _ _ _ _ (get?_lt hti)]
      by_cases hij : i = j
      · subst hij
        rw [if_pos rfl]
        constructor
        · intro hc
          exact TState.noConfusion (Option.some.inj hc)
        · intro hss
          have hcontra := (h4 i).mpr hss
          rw [hti] at hcontra
          exact TState.noConfusion (Option.some.inj hcontra)
      · rw [if_neg hij]
        exact h4 j
  | storeResult i hti hwl =>
    have hvnone : s.value = none := by
      cases hval : s.value with
      | none => rfl
      | some v =>
        have hwn := (h3 v hval).2
        rw [hwn] at hwl
        exact Option.noConfusion hwl
    have hcount : s.count = 1 := by
      have hc0 := h2 hvnone
      rw [hwl] at hc0
      exact hc0
    refine ⟨?_, ?_, ?_, ?_⟩
    · intro j
      rw [get?_set_cases _ _ _ _ (get?_lt hti)]
      by_cases hij : i = j
      · subst hij
        rw [if_pos rfl]
        constructor
        · intro hc
          exact TState.noConfusion (Option.some.inj hc)
        · intro hww
          exact Option.noConfusion hww
      · rw [if_neg hij]
        constructor
        · intro hc
          have hcontra := (h1 j).mp hc
          rw [hwl] at hcontra
          exact absurd (Option.some.inj hcontra) hij
        · intro hww
          exact Option.noConfusion hww
    · intro hvv
      exact Option.noConfusion hvv
    · intro v _
      exact ⟨hcount, rfl⟩
    · intro j
      rw [get?_set_cases _ _ _ _ (get?_lt hti)]
      by_cases hij : i = j
      · subst hij
        rw [if_pos rfl]
        constructor
        · intro hc
          exact TState.noConfusion (Option.some.inj hc)
        · intro hss
          have hcontra := (h4 i).mpr hss
          rw [hti] at hcontra
          exact TState.noConfusion (Option.some.inj hcontra)
      · rw [if_neg hij]
        exact h4 j

/-- Every reachable state of the concurrent cache system satisfies the
invariant. -/
theorem cacheReachable_inv {f n : Nat} {s : CacheSys}
    (h : cacheReachable f n s) : cacheInv s := by
  induction h with
  | refl => exact cacheInv_init n
  | tail _ hstep ih => exact cacheStep_inv hstep ih

/-- CLAIM C9.  Under every interleaving of concurrent `get_or_insert`
calls for one offset whose entry stays resident, the compute callback
runs at most once (`count ≤ 1` in every reachable state), and the shard
mutex is never held by a thread while that thread runs the compute
callback. -/
theorem concurrent_lru_single_flight (f n : Nat) (s : CacheSys)
    (h : cacheReachable f n s) :
    s.count ≤ 1 ∧
    ∀ i, s.threads.get? i = some TState.computing → s.slock ≠ some i := by
  obtain ⟨h1, h2, h3, h4⟩ := cacheReachable_inv h
  constructor
  · cases hval : s.value with
    | none =>
      have := h2 hval
      cases hw : s.wlock with
      | none => rw [hw] at this; simp only at this; omega
      | some j => rw [hw] at this; simp only at this; omega
    | some v =>
      exact (h3 v hval).1.le
  · intro i hc hsl
    have h5 := (h4 i).mpr hsl
    rw [hc] at h5
    exact TState.noConfusion (Option.some.inj h5)

/-- CLAIM C9 witness: the theorem applied to the initial two-thread
state via the empty trace. -/
theorem concurrent_lru_single_flight_witness :
    (cacheInit 2).count ≤ 1 ∧
    ∀ i, (cacheInit 2).threads.get? i = some TState.computing →
      (cacheInit 2).slock ≠ some i :=
  concurrent_lru_single_flight 7 2 (cacheInit 2) Relation.ReflTransGen.refl

end Sstb

